import Mathlib

/-!
Verification development for the xref cross-reference checker.

The Rust sources are shallowly embedded:
* `src/types.rs` : `Atom`, `Interner`, `Imports`, `Exports`, `Modules`, `App`.
* `src/analyzer.rs` : `Analyzer`, `AnalysisResult`, `Analyzer.run`,
  `check_missing_module`, `check_missing_dep`.
* `src/loader.rs` : `read_module`, `read_app`, `read_libs` over a model of
  directory listings and decoded BEAM chunk lists.

Rust hash maps are embedded as association lists queried through `alookup`
(first binding wins; insertion conses in front, which gives the same lookup
semantics as hash-map overwrite).  Rust panics (`unwrap`, indexing) are
embedded as `none` / `LoadResult.panic`; structured `anyhow` errors as
`LoadResult.err`.  `u32` arities only ever flow through equality tests, so
they are embedded as `Nat`.
-/

/-- Interned symbolic identifier, embedding `Atom(SymbolU32)` from
`src/types.rs`.  The wrapped `Nat` plays the role of the `SymbolU32` index. -/
structure Atom where
  sym : Nat
deriving DecidableEq

/-- A `(function, arity)` reference, embedding `(Atom, u32)`. -/
abbrev FunRef := Atom × Nat

/-- Embeds `type Exports = Vec<(Atom, u32)>` from `src/types.rs`. -/
abbrev Exports := List FunRef

/-- Embeds `type Imports = FxHashMap<Atom, Vec<(Atom, u32)>>` from
`src/types.rs`, as an association list. -/
abbrev Imports := List (Atom × List FunRef)

/-- Embeds `type Modules = FxHashMap<Atom, (Imports, Exports)>` from
`src/types.rs`, as an association list. -/
abbrev Modules := List (Atom × (Imports × Exports))

/-- Embeds `struct App` from `src/types.rs`. -/
structure App where
  name : Atom
  deps : List Atom
  modules : List Atom
deriving DecidableEq

/-- Embeds `type Apps = FxHashMap<Atom, App>` from `src/types.rs`. -/
abbrev Apps := List (Atom × App)

/-- Modelled from the spec: the `AppModules` type used by
`src/analyzer.rs` is not present under `src/` (`types.rs` lacks it); per the
spec it is the application to owned-modules mapping. -/
abbrev AppModules := List (Atom × List Atom)

/-- Modelled from the spec: the `AppDeps` type used by `src/analyzer.rs` is
not present under `src/`; per the spec it is a directed graph over
application atoms, embedded here as its list of directed edges. -/
abbrev AppDeps := List (Atom × Atom)

instance : DecidableEq (Atom × (Imports × Exports)) := fun a b =>
  have h : Decidable (a = b) := inferInstance
  h

/-- First-match association-list lookup, embedding hash-map indexing. -/
def alookup {β : Type} (k : Atom) : List (Atom × β) → Option β
  | [] => none
  | p :: rest => if p.1 = k then some p.2 else alookup k rest

/-- Embeds `enum AnalysisResult` from `src/analyzer.rs`. -/
inductive AnalysisResult
  | MissingModule : Atom → AnalysisResult
  | MissingFunction : Atom → Atom → Nat → AnalysisResult
  | MissingDependency : (module app_from app_to : Atom) → AnalysisResult
deriving DecidableEq

/-- Embeds `struct Analyzer` from `src/analyzer.rs`. -/
structure Analyzer where
  modules : Modules
  modules_rev : List (Atom × Atom)
  app_modules : AppModules
  app_deps : AppDeps

/-- Embeds `Analyzer::new`: the reverse index maps every module listed by an
application to that application. -/
def Analyzer.new (modules : Modules) (app_modules : AppModules)
    (app_deps : AppDeps) : Analyzer :=
  { modules := modules
    modules_rev :=
      app_modules.flatMap (fun p => p.2.map (fun m => (m, p.1)))
    app_modules := app_modules
    app_deps := app_deps }

/-- Insert `x` in front of `s` unless already present. -/
def insertNew (x : Atom) (s : List Atom) : List Atom :=
  if x ∈ s then s else x :: s

/-- One breadth step of graph search: add to `s` every edge target whose
edge source is already in `s`. -/
def stepReach (g : AppDeps) (s : List Atom) : List Atom :=
  (g.filterMap (fun e => if e.1 ∈ s then some e.2 else none)).foldr insertNew s

/-- Iterated breadth steps. -/
def reachList (g : AppDeps) : Nat → List Atom → List Atom
  | 0, s => s
  | n + 1, s => reachList g n (stepReach g s)

/-- Embeds `petgraph::algo::has_path_connecting` over the edge-list graph:
true iff a directed path (of any length, zero included) connects `a` to `b`.
`g.length + 1` breadth steps saturate, as proved below. -/
def has_path_connecting (g : AppDeps) (a b : Atom) : Bool :=
  decide (b ∈ reachList g (g.length + 1) [a])

/-- The edge relation of an `AppDeps` graph. -/
def edgeRel (g : AppDeps) (x y : Atom) : Prop := (x, y) ∈ g

/-- Embeds `Analyzer::check_missing_module` (src/analyzer.rs lines 76-90). -/
def check_missing_module (a : Analyzer) (module imported : Atom)
    (functions : List FunRef) : List (Atom × AnalysisResult) :=
  match alookup imported a.modules with
  | some ie =>
      (functions.filter (fun fa => decide (fa ∉ ie.2))).map
        (fun fa => (module, AnalysisResult.MissingFunction imported fa.1 fa.2))
  | none => [(module, AnalysisResult.MissingModule imported)]

/-- Embeds `Analyzer::check_missing_dep` (src/analyzer.rs lines 92-104).
The Rust `self.modules_rev[&module]` indexing panics when the key is
absent; that panic is embedded as `none`. -/
def check_missing_dep (a : Analyzer) (module imported : Atom) :
    Option (List (Atom × AnalysisResult)) :=
  match alookup module a.modules_rev with
  | none => none
  | some app_from =>
      match alookup imported a.modules_rev with
      | some app_to =>
          if has_path_connecting a.app_deps app_from app_to then some []
          else some
            [(module,
              AnalysisResult.MissingDependency imported app_from app_to)]
      | none => some []

/-- Flat-map with failure: `none` as soon as any element fails, embedding a
parallel flat_map whose body can panic. -/
def optFlatMap {α β : Type} (l : List α) (f : α → Option (List β)) :
    Option (List β) :=
  match l with
  | [] => some []
  | x :: xs =>
      match f x with
      | none => none
      | some ys =>
          match optFlatMap xs f with
          | none => none
          | some rest => some (ys ++ rest)

/-- Embeds the per-import closure of `Analyzer::run` (src/analyzer.rs lines
66-71): missing-module results first, then missing-dependency results. -/
def runImport (a : Analyzer) (module : Atom) (entry : Atom × List FunRef) :
    Option (List (Atom × AnalysisResult)) :=
  match check_missing_dep a module entry.1 with
  | none => none
  | some deps => some (check_missing_module a module entry.1 entry.2 ++ deps)

/-- Embeds the per-module closure of `Analyzer::run` (src/analyzer.rs lines
64-72): `self.modules.get(&module).unwrap()` panics (`none`) when the module
is absent from the table. -/
def runModule (a : Analyzer) (module : Atom) :
    Option (List (Atom × AnalysisResult)) :=
  match alookup module a.modules with
  | none => none
  | some ie => optFlatMap ie.1 (runImport a module)

/-- Embeds `Analyzer::run` (src/analyzer.rs lines 61-74):
`self.app_modules[app]` panics (`none`) when an application is absent. -/
def Analyzer.run (a : Analyzer) (apps : List Atom) :
    Option (List (Atom × AnalysisResult)) :=
  optFlatMap apps (fun app =>
    match alookup app a.app_modules with
    | none => none
    | some mods => optFlatMap mods (runModule a))

/-- Embeds the `Interner` (`string_interner::StringInterner`, an external
crate used by `src/types.rs`) at its boundary: a growing table of strings,
where a symbol is an index into the table. -/
structure Interner where
  strings : List String
deriving DecidableEq

/-- Index of the first occurrence of `value`, embedding the crate lookup. -/
def findIndex (value : String) : List String → Option Nat
  | [] => none
  | s :: rest =>
      if s = value then some 0 else (findIndex value rest).map (· + 1)

/-- Embeds `StringInterner::get_or_intern`: return the existing symbol for
`value`, or append `value` and return its fresh symbol. -/
def Interner.get_or_intern (it : Interner) (value : String) :
    Atom × Interner :=
  match findIndex value it.strings with
  | some idx => (⟨idx⟩, it)
  | none => (⟨it.strings.length⟩, ⟨it.strings ++ [value]⟩)

/-- Embeds `StringInterner::resolve`. -/
def Interner.resolveSym (it : Interner) (a : Atom) : Option String :=
  it.strings[a.sym]?

/-- Embeds `Atom::intern` from `src/types.rs` (the `&mut Interner` is made
explicit as a returned state). -/
def Atom.intern (it : Interner) (value : String) : Atom × Interner :=
  it.get_or_intern value

/-- Embeds `Atom::resolve` from `src/types.rs`. -/
def Atom.resolve (a : Atom) (it : Interner) : Option String :=
  it.resolveSym a

/-- A decoded chunk of a compiled-module (BEAM) file, embedding the
`StandardChunk` cases that `src/loader.rs` inspects; every other chunk kind
is `other`.  Export records are `(local function index, arity)`; import
records are `(local module index, local function index, arity)`. -/
inductive Chunk
  | atom : List String → Chunk
  | expT : List (Nat × Nat) → Chunk
  | impT : List (Nat × Nat × Nat) → Chunk
  | other : Chunk
deriving DecidableEq

/-- Is this an atom-table chunk? -/
def Chunk.isAtomChunk : Chunk → Bool
  | .atom _ => true
  | _ => false

/-- Is this an export-table chunk? -/
def Chunk.isExpChunk : Chunk → Bool
  | .expT _ => true
  | _ => false

/-- Is this an import-table chunk? -/
def Chunk.isImpChunk : Chunk → Bool
  | .impT _ => true
  | _ => false

/-- A successfully parsed compiled-module file: its chunk list.  Container
level parse failures of `StandardBeamFile::from_file` happen before this
model and are represented by the absence of a `BeamFile` (see `DirEntry`). -/
structure BeamFile where
  chunks : List Chunk
deriving DecidableEq

/-- The chunks singled out by the scan loop of `Loader::read_module`
(src/loader.rs lines 154-161): the last chunk of each kind wins. -/
structure FoundChunks where
  atomC : Option (List String)
  expC : Option (List (Nat × Nat))
  impC : Option (List (Nat × Nat × Nat))
deriving DecidableEq

/-- One step of the chunk scan loop. -/
def scanStep (acc : FoundChunks) : Chunk → FoundChunks
  | .atom a => { acc with atomC := some a }
  | .expT e => { acc with expC := some e }
  | .impT i => { acc with impC := some i }
  | .other => acc

/-- Embeds the chunk scan loop of `Loader::read_module`. -/
def scanChunks (cs : List Chunk) : FoundChunks :=
  cs.foldl scanStep ⟨none, none, none⟩

/-- Outcome of a fallible load step: `ok`, a structured `anyhow` error
(`err`), or an abnormal termination (`panic`, from `unwrap` or indexing). -/
inductive LoadResult (α : Type)
  | ok : α → LoadResult α
  | err : String → LoadResult α
  | panic : LoadResult α
deriving DecidableEq

/-- Embeds `load_atoms` from `src/loader.rs`: intern every raw atom name in
order, threading the interner. -/
def load_atoms (it : Interner) (names : List String) : List Atom × Interner :=
  names.foldl
    (fun acc name =>
      let r := acc.2.get_or_intern name
      (acc.1 ++ [r.1], r.2))
    ([], it)

/-- Resolve a 1-based local chunk index into the local atom list, embedding
`atoms[idx as usize - 1]`; index `0` underflows and out-of-range indexing
panics, both embedded as `none`. -/
def atomAt (atoms : List Atom) (idx : Nat) : Option Atom :=
  if idx = 0 then none else atoms[idx - 1]?

/-- Append one `(function, arity)` reference under key `k`, embedding
`imports.entry(k).or_default().push(v)` from `load_imports`. -/
def addImport (k : Atom) (v : FunRef) : Imports → Imports
  | [] => [(k, [v])]
  | (k1, l) :: rest =>
      if k1 = k then (k1, l ++ [v]) :: rest
      else (k1, l) :: addImport k v rest

/-- Embeds `load_imports` from `src/loader.rs`; a bad local index panics
(`none`). -/
def load_imports (atoms : List Atom) :
    List (Nat × Nat × Nat) → Option Imports
  | [] => some []
  | (m, f, ar) :: rest =>
      match atomAt atoms m, atomAt atoms f, load_imports atoms rest with
      | some ma, some fa, some imps => some (addImport ma (fa, ar) imps)
      | _, _, _ => none

/-- Embeds `load_exports` from `src/loader.rs`; a bad local index panics
(`none`). -/
def load_exports (atoms : List Atom) : List (Nat × Nat) → Option Exports
  | [] => some []
  | (f, ar) :: rest =>
      match atomAt atoms f, load_exports atoms rest with
      | some fa, some exps => some ((fa, ar) :: exps)
      | _, _ => none

/-- Embeds `Loader::read_module` (src/loader.rs lines 147-171) on an already
parsed chunk list: `atom_chunk.unwrap()`, `import_chunk.unwrap()`,
`export_chunk.unwrap()` and `atoms[0]` all panic when their operand is
missing. -/
def read_module (it : Interner) (beam : BeamFile) :
    LoadResult ((Atom × Imports × Exports) × Interner) :=
  match (scanChunks beam.chunks).atomC with
  | none => LoadResult.panic
  | some names =>
      let la := load_atoms it names
      match (scanChunks beam.chunks).impC with
      | none => LoadResult.panic
      | some rawImps =>
          match load_imports la.1 rawImps with
          | none => LoadResult.panic
          | some imports =>
              match (scanChunks beam.chunks).expC with
              | none => LoadResult.panic
              | some rawExps =>
                  match load_exports la.1 rawExps with
                  | none => LoadResult.panic
                  | some exports =>
                      match la.1[0]? with
                      | none => LoadResult.panic
                      | some name =>
                          LoadResult.ok ((name, imports, exports), la.2)

/-- A directory entry of a module-output (`ebin`) directory, carrying the
filesystem facts `Loader::read_app` consults: the displayed path, the result
of `path.extension()`, the result of `path.file_stem()`, the parse of the
file as a BEAM container (`none` = `from_file` fails; only consulted for the
compiled-module extension), and the dependency names the black-box
descriptor scan would extract (only consulted for the descriptor
extension — the heuristic extraction itself is out of scope per the spec). -/
structure DirEntry where
  path : String
  ext : Option String
  stem : Option String
  beam : Option BeamFile
  deps : List String
deriving DecidableEq

/-- The loader state shared across workers: interner plus module table. -/
structure LoadState where
  interner : Interner
  modules : Modules
deriving DecidableEq

/-- The per-application accumulator of `Loader::read_app`. -/
structure AppAcc where
  app_modules : List Atom
  app_name : Option Atom
  app_deps : Option (List Atom)
deriving DecidableEq

/-- Processes one directory entry, embedding the loop body of
`Loader::read_app` (src/loader.rs lines 83-113).  An entry without an
extension is skipped; recognized-ignored extensions are skipped; the
compiled-module extension decodes and registers a module; the descriptor
extension records the application name (from the file stem) and the
extracted dependency names; any other extension is a structured error
naming the file. -/
def processEntry (st : LoadState × AppAcc) (e : DirEntry) :
    LoadResult (LoadState × AppAcc) :=
  match e.ext with
  | none => LoadResult.ok st
  | some ext =>
      if ext = "beam" then
        match e.beam with
        | none => LoadResult.err ("failed to read BEAM file: " ++ e.path)
        | some beam =>
            match read_module st.1.interner beam with
            | LoadResult.ok r =>
                LoadResult.ok
                  (⟨r.2, (r.1.1, (r.1.2.1, r.1.2.2)) :: st.1.modules⟩,
                   { st.2 with app_modules := st.2.app_modules ++ [r.1.1] })
            | LoadResult.err m => LoadResult.err m
            | LoadResult.panic => LoadResult.panic
      else if ext = "app" then
        match e.stem with
        | some stem =>
            let r := st.1.interner.get_or_intern stem
            let d := load_atoms r.2 e.deps
            LoadResult.ok
              (⟨d.2, st.1.modules⟩,
               { st.2 with app_name := some r.1, app_deps := some d.1 })
        | none =>
            let d := load_atoms st.1.interner e.deps
            LoadResult.ok
              (⟨d.2, st.1.modules⟩,
               { st.2 with app_name := none, app_deps := some d.1 })
      else if ext = "appup" ∨ ext = "hrl" ∨ ext = "am" then LoadResult.ok st
      else LoadResult.err ("unexpected file: " ++ e.path)

/-- Folds `processEntry` over a directory listing, stopping at the first
error or panic, embedding the entry loop of `Loader::read_app`. -/
def processEntries (st : LoadState × AppAcc) :
    List DirEntry → LoadResult (LoadState × AppAcc)
  | [] => LoadResult.ok st
  | e :: es =>
      match processEntry st e with
      | LoadResult.ok st1 => processEntries st1 es
      | LoadResult.err m => LoadResult.err m
      | LoadResult.panic => LoadResult.panic

/-- Embeds `Loader::read_app` (src/loader.rs lines 78-121): after the entry
loop, a missing application name is a structured error; `app_deps.unwrap()`
panics when no descriptor branch ran (unreachable when a name was found). -/
def read_app (ls : LoadState) (ebin_path : String)
    (entries : List DirEntry) : LoadResult (LoadState × App) :=
  match processEntries (ls, ⟨[], none, none⟩) entries with
  | LoadResult.err m => LoadResult.err m
  | LoadResult.panic => LoadResult.panic
  | LoadResult.ok r =>
      match r.2.app_name with
      | none => LoadResult.err ("missing .app file in " ++ ebin_path)
      | some name =>
          match r.2.app_deps with
          | none => LoadResult.panic
          | some deps => LoadResult.ok (r.1, ⟨name, deps, r.2.app_modules⟩)

/-- One immediate child directory of a library root, carrying its file name,
the listing of its module-output subdirectory (`none` when that
subdirectory does not exist) and that subdirectory path for messages. -/
structure LibEntry where
  name : String
  ebin : Option (List DirEntry)
  ebinPath : String
deriving DecidableEq

/-- The dot character of the hidden-directory filter. -/
def dotChar : Char := Char.ofNat 46

/-- Embeds `name.starts_with(".")` from the hidden-directory filter of
`Loader::read_libs`: true iff the first character is a dot. -/
def startsWithDot (s : String) : Bool :=
  match s.data with
  | [] => false
  | c :: _ => c = dotChar

/-- Processes one library-root child directory, embedding the body of
`Loader::read_libs` (src/loader.rs lines 48-67): dot-prefixed names are
filtered out, directories without a module-output subdirectory are skipped,
otherwise the application is read and registered (hash-map overwrite is
embedded as consing in front). -/
def processLib (st : LoadState × Apps) (d : LibEntry) :
    LoadResult (LoadState × Apps) :=
  if startsWithDot d.name then LoadResult.ok st
  else
    match d.ebin with
    | none => LoadResult.ok st
    | some entries =>
        match read_app st.1 d.ebinPath entries with
        | LoadResult.ok r => LoadResult.ok (r.1, (r.2.name, r.2) :: st.2)
        | LoadResult.err m => LoadResult.err m
        | LoadResult.panic => LoadResult.panic

/-- Folds `processLib`, stopping at the first error or panic. -/
def processLibs (st : LoadState × Apps) :
    List LibEntry → LoadResult (LoadState × Apps)
  | [] => LoadResult.ok st
  | d :: ds =>
      match processLib st d with
      | LoadResult.ok st1 => processLibs st1 ds
      | LoadResult.err m => LoadResult.err m
      | LoadResult.panic => LoadResult.panic

/-- Embeds `Loader::read_libs` (src/loader.rs lines 34-68) applied to the
concatenated listings of all library roots, starting from the fresh state
of `Loader::new`. -/
def read_libs (dirs : List LibEntry) : LoadResult (LoadState × Apps) :=
  processLibs (⟨⟨[]⟩, []⟩, []) dirs

/-- Does this diagnostic pair carry a `MissingFunction`? -/
def isMissingFn : Atom × AnalysisResult → Bool
  | (_, AnalysisResult.MissingFunction _ _ _) => true
  | _ => false

/-- Does this diagnostic pair carry a `MissingDependency`? -/
def isMissingDep : Atom × AnalysisResult → Bool
  | (_, AnalysisResult.MissingDependency _ _ _) => true
  | _ => false

/-- Concrete atom standing for module `A` in examples. -/
def atomA : Atom := ⟨0⟩

/-- Concrete atom standing for module `B` in examples. -/
def atomB : Atom := ⟨1⟩

/-- Concrete atom standing for application `X` in examples. -/
def atomX : Atom := ⟨2⟩

/-- Concrete atom standing for application `Y` in examples. -/
def atomY : Atom := ⟨3⟩

/-- Concrete atom standing for function `f` in examples. -/
def atomF : Atom := ⟨4⟩

/-- Concrete atom standing for application `Z` in examples. -/
def atomZ : Atom := ⟨5⟩

/-- Example snapshot: application `X` owns module `B`, which imports `f/1`
from module `A`; `A` is absent from the module table. -/
def exMissingMod : Analyzer :=
  { modules := [(atomB, ([(atomA, [(atomF, 1)])], []))]
    modules_rev := [(atomB, atomX)]
    app_modules := [(atomX, [atomB])]
    app_deps := [] }

/-- Example snapshot: `A` exports `f/1`; `B` (same application `X`)
references `f/2` — an arity mismatch. -/
def exArity : Analyzer :=
  { modules := [(atomA, ([], [(atomF, 1)])), (atomB, ([(atomA, [(atomF, 2)])], []))]
    modules_rev := [(atomB, atomX), (atomA, atomX)]
    app_modules := [(atomX, [atomB, atomA])]
    app_deps := [] }

/-- Example snapshot: `X` owns `B`, `Y` owns `A`, `B` imports a valid export
of `A`, and the dependency graph has no edges. -/
def exCrossApp : Analyzer :=
  { modules := [(atomA, ([], [(atomF, 1)])), (atomB, ([(atomA, [(atomF, 1)])], []))]
    modules_rev := [(atomB, atomX), (atomA, atomY)]
    app_modules := [(atomX, [atomB]), (atomY, [atomA])]
    app_deps := [] }

/-- Raw analyzer state: module `B` (no imports) is listed for application
`X` and present in the module table, but absent from the reverse index. -/
def exNoRev : Analyzer :=
  { modules := [(atomB, ([], []))]
    modules_rev := []
    app_modules := [(atomX, [atomB])]
    app_deps := [] }

/-- A parsed compiled-module file missing its atom-table chunk. -/
def beamNoAtomChunk : BeamFile := ⟨[Chunk.expT [], Chunk.impT []]⟩

/-- The loader state of `Loader::new`: empty interner, empty module table. -/
def emptyLoadState : LoadState := ⟨⟨[]⟩, []⟩

/-- A directory entry with an unrecognized extension. -/
def entryBadExt : DirEntry :=
  { path := "lib/myapp/ebin/strange.xyz"
    ext := some "xyz"
    stem := some "strange"
    beam := none
    deps := [] }

/-- A library-root child directory whose module-output directory holds only
the unrecognized-extension entry. -/
def libWithBadExt : LibEntry :=
  { name := "myapp"
    ebin := some [entryBadExt]
    ebinPath := "lib/myapp/ebin" }

/-- A dependency-descriptor directory entry for application `myapp`. -/
def entryAppFile : DirEntry :=
  { path := "lib/myapp/ebin/myapp.app"
    ext := some "app"
    stem := some "myapp"
    beam := none
    deps := ["stdlib"] }

/-- A directory entry with no extension at all (for instance a
subdirectory). -/
def entryNoExt : DirEntry :=
  { path := "lib/myapp/ebin/subdir"
    ext := none
    stem := some "subdir"
    beam := none
    deps := [] }

/-- A successful association lookup finds a binding of the list. -/
theorem alookup_eq_some_mem {β : Type} {k : Atom} {v : β}
    {l : List (Atom × β)} (h : alookup k l = some v) : (k, v) ∈ l := by
  induction l with
  | nil => cases h
  | cons p rest ih =>
      simp only [alookup] at h
      split at h
      next heq =>
        injection h with h2
        subst heq
        subst h2
        exact List.mem_cons_self p rest
      next => exact List.mem_cons_of_mem _ (ih h)

/-- `optFlatMap` fails exactly when some element fails. -/
theorem optFlatMap_eq_none_iff {α β : Type} (l : List α)
    (f : α → Option (List β)) :
    optFlatMap l f = none ↔ ∃ x ∈ l, f x = none := by
  induction l with
  | nil => simp [optFlatMap]
  | cons x xs ih =>
      simp only [optFlatMap]
      cases hfx : f x with
      | none =>
          constructor
          · intro _
            exact ⟨x, List.mem_cons_self x xs, hfx⟩
          · intro _
            rfl
      | some ys =>
          cases hrest : optFlatMap xs f with
          | none =>
              constructor
              · intro _
                obtain ⟨y, hy, hfy⟩ := ih.mp hrest
                exact ⟨y, List.mem_cons_of_mem x hy, hfy⟩
              · intro _
                rfl
          | some rest =>
              constructor
              · intro h; cases h
              · rintro ⟨y, hy, hfy⟩
                rcases List.mem_cons.mp hy with rfl | hy2
                · rw [hfx] at hfy; cases hfy
                · have : optFlatMap xs f = none := ih.mpr ⟨y, hy2, hfy⟩
                  rw [hrest] at this; cases this

/-- Membership in `insertNew`. -/
theorem mem_insertNew {x y : Atom} {s : List Atom} :
    y ∈ insertNew x s ↔ y = x ∨ y ∈ s := by
  unfold insertNew
  split
  next hx =>
    constructor
    · exact fun h => Or.inr h
    · rintro (rfl | h)
      · exact hx
      · exact h
  next => simp [List.mem_cons]

/-- The base list is kept by repeated `insertNew`. -/
theorem subset_foldr_insertNew (l s : List Atom) :
    s ⊆ l.foldr insertNew s := by
  induction l with
  | nil => exact fun x hx => hx
  | cons x xs ih =>
      intro y hy
      show y ∈ insertNew x (xs.foldr insertNew s)
      exact mem_insertNew.mpr (Or.inr (ih hy))

/-- Membership after repeated `insertNew`. -/
theorem mem_foldr_insertNew {y : Atom} (l s : List Atom) :
    y ∈ l.foldr insertNew s ↔ y ∈ l ∨ y ∈ s := by
  induction l with
  | nil => simp
  | cons x xs ih =>
      show y ∈ insertNew x (xs.foldr insertNew s) ↔ _
      rw [mem_insertNew, ih, List.mem_cons]
      tauto

/-- `insertNew` preserves `Nodup`. -/
theorem nodup_insertNew {x : Atom} {s : List Atom} (h : s.Nodup) :
    (insertNew x s).Nodup := by
  unfold insertNew
  split
  next => exact h
  next hx => exact List.nodup_cons.mpr ⟨hx, h⟩

/-- Repeated `insertNew` preserves `Nodup`. -/
theorem nodup_foldr_insertNew (l s : List Atom) (h : s.Nodup) :
    (l.foldr insertNew s).Nodup := by
  induction l with
  | nil => exact h
  | cons x xs ih => exact nodup_insertNew ih

/-- Repeated `insertNew` only prepends new elements. -/
theorem foldr_insertNew_eq_append (l s : List Atom) :
    ∃ t, l.foldr insertNew s = t ++ s := by
  induction l with
  | nil => exact ⟨[], rfl⟩
  | cons x xs ih =>
      obtain ⟨t, ht⟩ := ih
      show ∃ u, insertNew x (xs.foldr insertNew s) = u ++ s
      by_cases hx : x ∈ xs.foldr insertNew s
      · exact ⟨t, by rw [insertNew, if_pos hx, ht]⟩
      · exact ⟨x :: t, by rw [insertNew, if_neg hx, ht]; rfl⟩

/-- The input set is kept by a breadth step. -/
theorem subset_stepReach (g : AppDeps) (s : List Atom) : s ⊆ stepReach g s :=
  subset_foldr_insertNew _ s

/-- Membership after one breadth step. -/
theorem mem_stepReach {g : AppDeps} {s : List Atom} {y : Atom} :
    y ∈ stepReach g s ↔ (∃ e ∈ g, e.1 ∈ s ∧ e.2 = y) ∨ y ∈ s := by
  unfold stepReach
  rw [mem_foldr_insertNew]
  constructor
  · rintro (h | h)
    · rw [List.mem_filterMap] at h
      obtain ⟨e, he, hcond⟩ := h
      by_cases hsrc : e.1 ∈ s
      · rw [if_pos hsrc] at hcond
        exact Or.inl ⟨e, he, hsrc, Option.some_inj.mp hcond⟩
      · rw [if_neg hsrc] at hcond; cases hcond
    · exact Or.inr h
  · rintro (⟨e, he, hsrc, rfl⟩ | h)
    · refine Or.inl ?_
      rw [List.mem_filterMap]
      exact ⟨e, he, by rw [if_pos hsrc]⟩
    · exact Or.inr h

/-- A breadth step preserves `Nodup`. -/
theorem stepReach_nodup {g : AppDeps} {s : List Atom} (h : s.Nodup) :
    (stepReach g s).Nodup := nodup_foldr_insertNew _ _ h

/-- A breadth step only prepends new elements. -/
theorem stepReach_eq_append (g : AppDeps) (s : List Atom) :
    ∃ t, stepReach g s = t ++ s := foldr_insertNew_eq_append _ _

/-- A breadth step stays inside any superset that holds all edge targets. -/
theorem stepReach_subset_of (g : AppDeps) (s u : List Atom)
    (hs : s ⊆ u) (hg : ∀ e ∈ g, e.2 ∈ u) : stepReach g s ⊆ u := by
  intro y hy
  rcases mem_stepReach.mp hy with (⟨e, he, _, rfl⟩ | h)
  · exact hg e he
  · exact hs h

/-- Unfolding lemma for the successor case of `reachList`. -/
theorem reachList_succ (g : AppDeps) (n : Nat) (s : List Atom) :
    reachList g (n + 1) s = reachList g n (stepReach g s) := rfl

/-- A fixpoint of `stepReach` is a fixpoint of every iteration. -/
theorem reachList_fixed (g : AppDeps) (s : List Atom)
    (h : stepReach g s = s) : ∀ n, reachList g n s = s := by
  intro n
  induction n with
  | zero => rfl
  | succ n ih => rw [reachList_succ, h]; exact ih

/-- The start set is kept by every iteration. -/
theorem subset_reachList (g : AppDeps) (n : Nat) :
    ∀ s : List Atom, s ⊆ reachList g n s := by
  induction n with
  | zero => exact fun s x hx => hx
  | succ n ih =>
      intro s x hx
      rw [reachList_succ]
      exact ih (stepReach g s) (subset_stepReach g s hx)

/-- Everything the iteration collects is reachable from `a`, provided the
start set is. -/
theorem reachList_sound (g : AppDeps) (a : Atom) :
    ∀ (n : Nat) (s : List Atom),
      (∀ x ∈ s, Relation.ReflTransGen (edgeRel g) a x) →
      ∀ y ∈ reachList g n s, Relation.ReflTransGen (edgeRel g) a y := by
  intro n
  induction n with
  | zero => exact fun s hs => hs
  | succ n ih =>
      intro s hs y hy
      rw [reachList_succ] at hy
      refine ih (stepReach g s) ?_ y hy
      intro x hx
      rcases mem_stepReach.mp hx with (⟨e, he, hsrc, rfl⟩ | h)
      · exact Relation.ReflTransGen.tail (hs e.1 hsrc) he
      · exact hs x h

/-- A `stepReach` fixpoint containing `a` contains everything reachable
from `a`. -/
theorem closed_mem_of_rtg (g : AppDeps) (S : List Atom)
    (hclosed : stepReach g S = S) {a b : Atom} (ha : a ∈ S)
    (h : Relation.ReflTransGen (edgeRel g) a b) : b ∈ S := by
  induction h with
  | refl => exact ha
  | tail h1 h2 ih =>
      have hmem := mem_stepReach.mpr (Or.inl ⟨(_, _), h2, ih, rfl⟩)
      rwa [hclosed] at hmem

/-- A `Nodup` list is no longer than any list containing it. -/
theorem nodup_subset_length {l u : List Atom} (h : l.Nodup) (hs : l ⊆ u) :
    l.length ≤ u.length :=
  calc l.length = l.toFinset.card := (List.toFinset_card_of_nodup h).symm
    _ ≤ u.toFinset.card := Finset.card_le_card (fun x hx => by
        rw [List.mem_toFinset] at hx ⊢; exact hs hx)
    _ ≤ u.length := u.toFinset_card_le

/-- Iterating keeps `Nodup` and the node bound, and either reaches a
fixpoint or strictly grows at every step. -/
theorem reachList_saturates (g : AppDeps) (u : List Atom)
    (hg : ∀ e ∈ g, e.2 ∈ u) :
    ∀ (n : Nat) (s : List Atom), s.Nodup → s ⊆ u →
      (reachList g n s).Nodup ∧ reachList g n s ⊆ u ∧
        (stepReach g (reachList g n s) = reachList g n s ∨
          n + s.length ≤ (reachList g n s).length) := by
  intro n
  induction n with
  | zero =>
      refine fun s h1 h2 => ⟨h1, h2, Or.inr ?_⟩
      show 0 + s.length ≤ s.length
      omega
  | succ n ih =>
      intro s h1 h2
      by_cases hfix : stepReach g s = s
      · have hr : reachList g (n + 1) s = s := reachList_fixed g s hfix (n + 1)
        rw [hr]
        exact ⟨h1, h2, Or.inl hfix⟩
      · have hnodup := stepReach_nodup (g := g) h1
        have hsub := stepReach_subset_of g s u h2 hg
        obtain ⟨hn, hs, hor⟩ := ih (stepReach g s) hnodup hsub
        rw [reachList_succ]
        refine ⟨hn, hs, ?_⟩
        rcases hor with hfix2 | hlen
        · exact Or.inl hfix2
        · refine Or.inr ?_
          obtain ⟨t, ht⟩ := stepReach_eq_append g s
          have htne : t ≠ [] := fun h0 => hfix (by rw [ht, h0]; rfl)
          have hlen2 : s.length + 1 ≤ (stepReach g s).length := by
            rw [ht, List.length_append]
            have : 0 < t.length := List.length_pos.mpr htne
            omega
          omega

/-- After `g.length + 1` iterations from `[a]`, the collected set is a
`stepReach` fixpoint. -/
theorem stepReach_reachList_final (g : AppDeps) (a : Atom) :
    stepReach g (reachList g (g.length + 1) [a]) =
      reachList g (g.length + 1) [a] := by
  have hg : ∀ e ∈ g, e.2 ∈ a :: g.map Prod.snd :=
    fun e he => List.mem_cons_of_mem _ (List.mem_map_of_mem _ he)
  have h1 : ([a] : List Atom).Nodup := by simp
  have h2 : [a] ⊆ a :: g.map Prod.snd := by
    intro x hx
    rw [List.mem_singleton] at hx
    subst hx
    exact List.mem_cons_self _ _
  obtain ⟨hn, hs, hor⟩ :=
    reachList_saturates g (a :: g.map Prod.snd) hg (g.length + 1) [a] h1 h2
  rcases hor with hfix | hlen
  · exact hfix
  · exfalso
    have hle := nodup_subset_length hn hs
    have hcard : (a :: g.map Prod.snd).length = g.length + 1 := by simp
    simp only [List.length_singleton] at hlen
    omega

/-- Correctness of the embedded `has_path_connecting`: it decides
reflexive-transitive reachability along the edge relation. -/
theorem has_path_connecting_iff (g : AppDeps) (a b : Atom) :
    has_path_connecting g a b = true ↔
      Relation.ReflTransGen (edgeRel g) a b := by
  unfold has_path_connecting
  rw [decide_eq_true_iff]
  constructor
  · intro h
    refine reachList_sound g a (g.length + 1) [a] ?_ b h
    intro x hx
    rw [List.mem_singleton] at hx
    subst hx
    exact Relation.ReflTransGen.refl
  · intro h
    exact closed_mem_of_rtg g _ (stepReach_reachList_final g a)
      (subset_reachList g (g.length + 1) [a] (List.mem_singleton_self a)) h

/-- Reachability is reflexive, node present in the graph or not. -/
theorem has_path_connecting_self (g : AppDeps) (a : Atom) :
    has_path_connecting g a a = true :=
  (has_path_connecting_iff g a a).mpr Relation.ReflTransGen.refl

/-- `check_missing_dep` panics exactly when the referencing module is
absent from the reverse index. -/
theorem check_missing_dep_eq_none_iff (a : Analyzer) (module imported : Atom) :
    check_missing_dep a module imported = none ↔
      alookup module a.modules_rev = none := by
  cases h : alookup module a.modules_rev with
  | none => simp [check_missing_dep, h]
  | some app_from =>
      cases h2 : alookup imported a.modules_rev with
      | none => simp [check_missing_dep, h, h2]
      | some app_to =>
          simp only [check_missing_dep, h, h2]
          split <;> simp

/-- `runImport` panics exactly when the referencing module is absent from
the reverse index. -/
theorem runImport_eq_none_iff (a : Analyzer) (module : Atom)
    (entry : Atom × List FunRef) :
    runImport a module entry = none ↔
      alookup module a.modules_rev = none := by
  unfold runImport
  cases hd : check_missing_dep a module entry.1 with
  | none =>
      constructor
      · intro _
        exact (check_missing_dep_eq_none_iff a module entry.1).mp hd
      · intro _
        rfl
  | some deps =>
      constructor
      · intro h; cases h
      · intro hrev
        have h3 := (check_missing_dep_eq_none_iff a module entry.1).mpr hrev
        rw [hd] at h3
        cases h3

/-- `runModule` panics exactly when the module is absent from the module
table, or has at least one import entry while absent from the reverse
index. -/
theorem runModule_eq_none_iff (a : Analyzer) (m : Atom) :
    runModule a m = none ↔
      alookup m a.modules = none ∨
      ∃ ie, alookup m a.modules = some ie ∧ ie.1 ≠ [] ∧
        alookup m a.modules_rev = none := by
  unfold runModule
  cases h : alookup m a.modules with
  | none =>
      constructor
      · intro _
        exact Or.inl rfl
      · intro _
        rfl
  | some ie =>
      constructor
      · intro hfm
        have hfm2 : optFlatMap ie.1 (runImport a m) = none := hfm
        rw [optFlatMap_eq_none_iff] at hfm2
        obtain ⟨e, he, hre⟩ := hfm2
        have hrev := (runImport_eq_none_iff a m e).mp hre
        refine Or.inr ⟨ie, rfl, ?_, hrev⟩
        intro h0
        rw [h0] at he
        cases he
      · rintro (h0 | ⟨ie2, hie2, hne, hrev⟩)
        · cases h0
        · injection hie2 with h3
          subst h3
          show optFlatMap ie.1 (runImport a m) = none
          rw [optFlatMap_eq_none_iff]
          obtain ⟨e, he⟩ := List.exists_mem_of_ne_nil ie.1 hne
          exact ⟨e, he, (runImport_eq_none_iff a m e).mpr hrev⟩

/-- C1 (counterexample): on a snapshot where application `X` owns module
`B` with a diagnosable import, running with the empty application subset
returns the empty diagnostic list while running with the full application
list reports the missing module — the empty subset is not global mode. -/
theorem run_empty_subset_cex :
    Analyzer.run exMissingMod [] = some [] ∧
      Analyzer.run exMissingMod [atomX] =
        some [(atomB, AnalysisResult.MissingModule atomA)] ∧
      Analyzer.run exMissingMod [] ≠ Analyzer.run exMissingMod [atomX] := by
  refine ⟨rfl, by decide, by decide⟩

/-- C1 (amended): calling `Analyzer::run` with an empty application subset
analyzes no modules at all and returns the empty diagnostic list, for every
snapshot; global mode has to be requested by passing every application. -/
theorem run_empty_subset_returns_empty (a : Analyzer) :
    Analyzer.run a [] = some [] := rfl

/-- C2: when the imported module has no entry in the module table, the
analysis of a (module, imported) pair emits exactly one
`MissingModule(imported)` diagnostic and nothing else — in particular no
`MissingFunction` and no `MissingDependency` — provided the module itself
is indexed and the reverse index only lists modules present in the table
(the loader invariant stated by the spec). -/
theorem missing_module_rule (a : Analyzer) (module imported app_from : Atom)
    (functions : List FunRef)
    (hmiss : alookup imported a.modules = none)
    (hrev : alookup module a.modules_rev = some app_from)
    (hinv : ∀ p ∈ a.modules_rev, (alookup p.1 a.modules).isSome = true) :
    runImport a module (imported, functions) =
      some [(module, AnalysisResult.MissingModule imported)] := by
  have hrevimp : alookup imported a.modules_rev = none := by
    cases hri : alookup imported a.modules_rev with
    | none => rfl
    | some x =>
        have hmem := alookup_eq_some_mem hri
        have h2 := hinv (imported, x) hmem
        rw [hmiss] at h2
        simp at h2
  have hdep : check_missing_dep a module imported = some [] := by
    simp only [check_missing_dep, hrev, hrevimp]
  have hmod : check_missing_module a module imported functions =
      [(module, AnalysisResult.MissingModule imported)] := by
    simp only [check_missing_module, hmiss]
  simp only [runImport, hdep, hmod, List.append_nil]

/-- C2 (witness): concrete instance of the module-existence rule. -/
theorem missing_module_rule_witness :
    runImport exMissingMod atomB (atomA, [(atomF, 1)]) =
      some [(atomB, AnalysisResult.MissingModule atomA)] :=
  missing_module_rule exMissingMod atomB atomA atomX [(atomF, 1)]
    (by decide) (by decide) (by decide)

/-- C3: when the imported module is present in the module table, the
`MissingFunction` diagnostics emitted for the (module, imported) pair are
exactly one `MissingFunction(imported, f, a)` for each `(f, a)` of the
reference list that is not an exact member of the imported module's export
list — no arity coercion, and duplicate export entries cannot change
membership. -/
theorem missing_function_rule (a : Analyzer) (module imported app_from : Atom)
    (functions : List FunRef) (ie : Imports × Exports)
    (hsome : alookup imported a.modules = some ie)
    (hrev : alookup module a.modules_rev = some app_from) :
    ∃ rs, runImport a module (imported, functions) = some rs ∧
      rs.filter isMissingFn =
        (functions.filter (fun fa => decide (fa ∉ ie.2))).map
          (fun fa =>
            (module, AnalysisResult.MissingFunction imported fa.1 fa.2)) := by
  have hmod : check_missing_module a module imported functions =
      (functions.filter (fun fa => decide (fa ∉ ie.2))).map
        (fun fa =>
          (module, AnalysisResult.MissingFunction imported fa.1 fa.2)) := by
    simp only [check_missing_module, hsome]
  have hfil : (check_missing_module a module imported functions).filter
      isMissingFn = check_missing_module a module imported functions := by
    rw [hmod]
    apply List.filter_eq_self.mpr
    intro x hx
    rw [List.mem_map] at hx
    obtain ⟨fa, _, hfa⟩ := hx
    rw [← hfa]
    rfl
  obtain ⟨deps, hdeps, hdf⟩ : ∃ deps,
      check_missing_dep a module imported = some deps ∧
        deps.filter isMissingFn = [] := by
    cases hri : alookup imported a.modules_rev with
    | none => exact ⟨[], by simp only [check_missing_dep, hrev, hri], rfl⟩
    | some app_to =>
        by_cases hp :
            has_path_connecting a.app_deps app_from app_to = true
        · exact ⟨[],
            by simp only [check_missing_dep, hrev, hri, if_pos hp], rfl⟩
        · exact ⟨[(module,
              AnalysisResult.MissingDependency imported app_from app_to)],
            by simp only [check_missing_dep, hrev, hri, if_neg hp], rfl⟩
  refine ⟨check_missing_module a module imported functions ++ deps, ?_, ?_⟩
  · simp only [runImport, hdeps]
  · rw [List.filter_append, hfil, hdf, List.append_nil, hmod]

/-- C3 (witness): the arity-mismatch example — `A` exports `f/1`, `B`
references `f/2` — yields exactly one `MissingFunction(A, f, 2)`. -/
theorem missing_function_rule_witness :
    ∃ rs, runImport exArity atomB (atomA, [(atomF, 2)]) = some rs ∧
      rs.filter isMissingFn =
        [(atomB, AnalysisResult.MissingFunction atomA atomF 2)] := by
  obtain ⟨rs, h1, h2⟩ :=
    missing_function_rule exArity atomB atomA atomX [(atomF, 2)]
      ([], [(atomF, 1)]) (by decide) (by decide)
  refine ⟨rs, h1, ?_⟩
  rw [h2]
  rfl

/-- `check_missing_module` never emits a `MissingDependency`. -/
theorem check_missing_module_no_dep (a : Analyzer)
    (module imported m af at2 : Atom) (functions : List FunRef) :
    (m, AnalysisResult.MissingDependency imported af at2) ∉
      check_missing_module a module imported functions := by
  intro hx
  cases hlook : alookup imported a.modules with
  | none =>
      simp only [check_missing_module, hlook, List.mem_singleton] at hx
      cases hx
  | some ie =>
      simp only [check_missing_module, hlook, List.mem_map] at hx
      obtain ⟨fa, _, heq⟩ := hx
      cases heq

/-- C4: for a cross-application reference with both modules in the reverse
index, a `MissingDependency{imported, app_from, app_to}` diagnostic is
emitted for the pair iff no directed path of any length connects `app_from`
to `app_to` in the dependency graph; the presence of a direct edge or of a
two-step path suppresses the diagnostic. -/
theorem missing_dependency_rule (a : Analyzer)
    (module imported app_from app_to : Atom) (functions : List FunRef)
    (hrevm : alookup module a.modules_rev = some app_from)
    (hrevi : alookup imported a.modules_rev = some app_to)
    (_hne : app_from ≠ app_to) :
    ∃ rs, runImport a module (imported, functions) = some rs ∧
      ((module, AnalysisResult.MissingDependency imported app_from app_to)
          ∈ rs ↔
        ¬ Relation.ReflTransGen (edgeRel a.app_deps) app_from app_to) ∧
      (((app_from, app_to) ∈ a.app_deps ∨
          ∃ z, (app_from, z) ∈ a.app_deps ∧ (z, app_to) ∈ a.app_deps) →
        (module, AnalysisResult.MissingDependency imported app_from app_to)
          ∉ rs) := by
  have hmm := check_missing_module_no_dep a module imported module
    app_from app_to functions
  by_cases hp : has_path_connecting a.app_deps app_from app_to = true
  · refine ⟨check_missing_module a module imported functions ++ [],
      ?_, ?_, ?_⟩
    · simp only [runImport, check_missing_dep, hrevm, hrevi, if_pos hp]
    · constructor
      · intro hmem
        rw [List.append_nil] at hmem
        exact absurd hmem hmm
      · intro hn
        exact absurd ((has_path_connecting_iff _ _ _).mp hp) hn
    · intro _ hmem
      rw [List.append_nil] at hmem
      exact hmm hmem
  · have hnp : ¬ Relation.ReflTransGen (edgeRel a.app_deps)
        app_from app_to :=
      fun hr => hp ((has_path_connecting_iff _ _ _).mpr hr)
    refine ⟨check_missing_module a module imported functions ++
      [(module, AnalysisResult.MissingDependency imported app_from app_to)],
      ?_, ?_, ?_⟩
    · simp only [runImport, check_missing_dep, hrevm, hrevi, if_neg hp]
    · constructor
      · intro _
        exact hnp
      · intro _
        exact List.mem_append_right _ (List.mem_singleton_self _)
    · intro hpath
      exfalso
      apply hnp
      rcases hpath with hedge | ⟨z, h1, h2⟩
      · exact Relation.ReflTransGen.single hedge
      · exact Relation.ReflTransGen.tail (Relation.ReflTransGen.single h1) h2

/-- C4 (witness): `X` owns `B`, `Y` owns `A`, the graph is empty — the
diagnostic is present iff `Y` is unreachable from `X` (it is). -/
theorem missing_dependency_rule_witness :
    ∃ rs, runImport exCrossApp atomB (atomA, [(atomF, 1)]) = some rs ∧
      ((atomB, AnalysisResult.MissingDependency atomA atomX atomY) ∈ rs ↔
        ¬ Relation.ReflTransGen (edgeRel exCrossApp.app_deps) atomX atomY) ∧
      (((atomX, atomY) ∈ exCrossApp.app_deps ∨
          ∃ z, (atomX, z) ∈ exCrossApp.app_deps ∧
            (z, atomY) ∈ exCrossApp.app_deps) →
        (atomB, AnalysisResult.MissingDependency atomA atomX atomY) ∉ rs) :=
  missing_dependency_rule exCrossApp atomB atomA atomX atomY [(atomF, 1)]
    (by decide) (by decide) (by decide)

/-- C5: a reference whose referencing and imported modules are owned by the
same application never yields a `MissingDependency`, whatever the contents
of the dependency graph (the zero-length path always exists). -/
theorem intra_app_no_missing_dependency (a : Analyzer)
    (module imported app : Atom)
    (hrevm : alookup module a.modules_rev = some app)
    (hrevi : alookup imported a.modules_rev = some app) :
    check_missing_dep a module imported = some [] := by
  simp only [check_missing_dep, hrevm, hrevi,
    if_pos (has_path_connecting_self a.app_deps app)]

/-- C5 (witness): `A` and `B` both owned by `X`, empty graph — no
dependency diagnostic. -/
theorem intra_app_no_missing_dependency_witness :
    check_missing_dep exArity atomB atomA = some [] :=
  intra_app_no_missing_dependency exArity atomB atomA atomX
    (by decide) (by decide)

/-- C9 (counterexample): a state whose selected module `B` is listed for
application `X` and present in the module table but absent from the reverse
index, with an empty import map — `Analyzer::run` returns a result
normally instead of panicking. -/
theorem run_no_rev_index_cex :
    alookup atomB exNoRev.modules_rev = none ∧
      Analyzer.run exNoRev [atomX] = some [] := ⟨rfl, rfl⟩

/-- C9 (amended): `Analyzer::run` terminates abnormally exactly when some
selected application is not a key of the application-modules mapping, or
some module listed for a selected application is absent from the module
table, or is absent from the reverse index while having at least one
entry in its import map (a module with no imports never consults the
reverse index). -/
theorem run_none_iff (a : Analyzer) (apps : List Atom) :
    Analyzer.run a apps = none ↔
      (∃ app ∈ apps, alookup app a.app_modules = none) ∨
      (∃ app ∈ apps, ∃ mods, alookup app a.app_modules = some mods ∧
        ∃ m ∈ mods,
          alookup m a.modules = none ∨
          ∃ ie, alookup m a.modules = some ie ∧ ie.1 ≠ [] ∧
            alookup m a.modules_rev = none) := by
  unfold Analyzer.run
  rw [optFlatMap_eq_none_iff]
  constructor
  · rintro ⟨app, happ, hnone⟩
    cases h : alookup app a.app_modules with
    | none => exact Or.inl ⟨app, happ, h⟩
    | some mods =>
        simp only [h] at hnone
        rw [optFlatMap_eq_none_iff] at hnone
        obtain ⟨m, hm, hmn⟩ := hnone
        rcases (runModule_eq_none_iff a m).mp hmn with
          h1 | ⟨ie, hie, hnem, hrev⟩
        · exact Or.inr ⟨app, happ, mods, h, m, hm, Or.inl h1⟩
        · exact Or.inr
            ⟨app, happ, mods, h, m, hm, Or.inr ⟨ie, hie, hnem, hrev⟩⟩
  · rintro (⟨app, happ, hnone⟩ | ⟨app, happ, mods, hmods, m, hm, hbad⟩)
    · exact ⟨app, happ, by simp only [hnone]⟩
    · refine ⟨app, happ, ?_⟩
      simp only [hmods]
      rw [optFlatMap_eq_none_iff]
      exact ⟨m, hm, (runModule_eq_none_iff a m).mpr hbad⟩

/-- A successful `findIndex` points at the searched value. -/
theorem findIndex_get (v : String) :
    ∀ (l : List String) (i : Nat), findIndex v l = some i →
      l[i]? = some v := by
  intro l
  induction l with
  | nil => intro i h; cases h
  | cons s rest ih =>
      intro i h
      simp only [findIndex] at h
      split at h
      next heq =>
        injection h with h2
        subst h2
        simp [heq]
      next =>
        cases hf : findIndex v rest with
        | none => rw [hf] at h; cases h
        | some j =>
            rw [hf] at h
            injection h with h2
            subst h2
            simpa using ih j hf

/-- Appending the searched value to a list not containing it finds it at
the old length. -/
theorem findIndex_append (v : String) :
    ∀ l : List String, findIndex v l = none →
      findIndex v (l ++ [v]) = some l.length := by
  intro l
  induction l with
  | nil => intro _; simp [findIndex]
  | cons s rest ih =>
      intro h
      rw [List.cons_append]
      simp only [findIndex] at h ⊢
      split at h
      next => cases h
      next hne =>
        rw [if_neg hne]
        have h2 : findIndex v rest = none := Option.map_eq_none'.mp h
        rw [ih h2]
        simp

/-- C8: on any `Interner`, `intern` is idempotent — interning the same
string twice returns the same `Atom` and leaves the interner unchanged —
and `resolve` round-trips the freshly interned string; moreover every
`Atom` resolvable before an `intern` stays resolvable to the same string
after it, so `resolve` never fails on an `Atom` this interner produced. -/
theorem intern_idempotent_roundtrip (it : Interner) (s : String) :
    (Atom.intern (Atom.intern it s).2 s).1 = (Atom.intern it s).1 ∧
    (Atom.intern (Atom.intern it s).2 s).2 = (Atom.intern it s).2 ∧
    Atom.resolve (Atom.intern it s).1 (Atom.intern it s).2 = some s ∧
    (∀ (a : Atom) (t : String), Atom.resolve a it = some t →
      Atom.resolve a (Atom.intern it s).2 = some t) := by
  cases hf : findIndex s it.strings with
  | some idx =>
      have h1 : Atom.intern it s = (⟨idx⟩, it) := by
        simp [Atom.intern, Interner.get_or_intern, hf]
      have hidx := findIndex_get s it.strings idx hf
      refine ⟨?_, ?_, ?_, ?_⟩
      · simp [h1]
      · simp [h1]
      · simp only [h1]
        simpa [Atom.resolve, Interner.resolveSym] using hidx
      · intro a t ht
        simp only [h1]
        exact ht
  | none =>
      have h1 : Atom.intern it s =
          (⟨it.strings.length⟩, ⟨it.strings ++ [s]⟩) := by
        simp [Atom.intern, Interner.get_or_intern, hf]
      have h2 : findIndex s (it.strings ++ [s]) = some it.strings.length :=
        findIndex_append s it.strings hf
      have h3 : Atom.intern (⟨it.strings ++ [s]⟩ : Interner) s =
          (⟨it.strings.length⟩, ⟨it.strings ++ [s]⟩) := by
        simp [Atom.intern, Interner.get_or_intern, h2]
      refine ⟨?_, ?_, ?_, ?_⟩
      · rw [h1]
        show (Atom.intern (⟨it.strings ++ [s]⟩ : Interner) s).1 = _
        rw [h3]
      · rw [h1]
        show (Atom.intern (⟨it.strings ++ [s]⟩ : Interner) s).2 = _
        rw [h3]
      · rw [h1]
        show Interner.resolveSym ⟨it.strings ++ [s]⟩ ⟨it.strings.length⟩ =
          some s
        unfold Interner.resolveSym
        exact List.getElem?_concat_length it.strings s
      · intro a t ht
        rw [h1]
        show Interner.resolveSym ⟨it.strings ++ [s]⟩ a = some t
        unfold Interner.resolveSym
        have hlt : a.sym < it.strings.length :=
          (List.getElem?_eq_some.mp ht).1
        rw [List.getElem?_append_left hlt]
        exact ht

/-- C8 (witness): concrete instance on an interner already holding one
string. -/
theorem intern_idempotent_roundtrip_witness :
    (Atom.intern (Atom.intern ⟨["a"]⟩ "b").2 "b").1 =
        (Atom.intern (⟨["a"]⟩ : Interner) "b").1 ∧
      (Atom.intern (Atom.intern ⟨["a"]⟩ "b").2 "b").2 =
        (Atom.intern (⟨["a"]⟩ : Interner) "b").2 ∧
      Atom.resolve (Atom.intern ⟨["a"]⟩ "b").1
        (Atom.intern (⟨["a"]⟩ : Interner) "b").2 = some "b" ∧
      Atom.resolve ⟨0⟩ (Atom.intern (⟨["a"]⟩ : Interner) "b").2 = some "a" := by
  have h := intern_idempotent_roundtrip ⟨["a"]⟩ "b"
  exact ⟨h.1, h.2.1, h.2.2.1, h.2.2.2 ⟨0⟩ "a" rfl⟩

/-- A chunk scan over a list without atom chunks leaves the atom slot
untouched. -/
theorem scanFold_atom_none (cs : List Chunk) :
    ∀ acc : FoundChunks, cs.all (fun c => !c.isAtomChunk) = true →
      (cs.foldl scanStep acc).atomC = acc.atomC := by
  induction cs with
  | nil => intro acc _; rfl
  | cons c rest ih =>
      intro acc hall
      rw [List.all_cons, Bool.and_eq_true] at hall
      obtain ⟨hc, hrest⟩ := hall
      rw [List.foldl_cons, ih _ hrest]
      cases c with
      | atom a => simp [Chunk.isAtomChunk] at hc
      | expT e => rfl
      | impT i => rfl
      | other => rfl

/-- A chunk scan over a list without import chunks leaves the import slot
untouched. -/
theorem scanFold_imp_none (cs : List Chunk) :
    ∀ acc : FoundChunks, cs.all (fun c => !c.isImpChunk) = true →
      (cs.foldl scanStep acc).impC = acc.impC := by
  induction cs with
  | nil => intro acc _; rfl
  | cons c rest ih =>
      intro acc hall
      rw [List.all_cons, Bool.and_eq_true] at hall
      obtain ⟨hc, hrest⟩ := hall
      rw [List.foldl_cons, ih _ hrest]
      cases c with
      | atom a => rfl
      | expT e => rfl
      | impT i => simp [Chunk.isImpChunk] at hc
      | other => rfl

/-- A chunk scan over a list without export chunks leaves the export slot
untouched. -/
theorem scanFold_exp_none (cs : List Chunk) :
    ∀ acc : FoundChunks, cs.all (fun c => !c.isExpChunk) = true →
      (cs.foldl scanStep acc).expC = acc.expC := by
  induction cs with
  | nil => intro acc _; rfl
  | cons c rest ih =>
      intro acc hall
      rw [List.all_cons, Bool.and_eq_true] at hall
      obtain ⟨hc, hrest⟩ := hall
      rw [List.foldl_cons, ih _ hrest]
      cases c with
      | atom a => rfl
      | expT e => simp [Chunk.isExpChunk] at hc
      | impT i => rfl
      | other => rfl

/-- C6 (counterexample): decoding a parsed module file that lacks its
required atom-table chunk terminates abnormally (the embedded `unwrap`
panic) instead of producing a structured error. -/
theorem read_module_missing_chunk_cex :
    read_module ⟨[]⟩ beamNoAtomChunk = LoadResult.panic := rfl

/-- C6 (amended): whenever any of the three required chunks (the atom
table, the import table or the export table) is absent from a parsed
module file, decoding
terminates abnormally via the `unwrap` panic — it neither succeeds nor
returns a structured error, and the load aborts. -/
theorem read_module_missing_chunk_panics (it : Interner) (beam : BeamFile)
    (h : beam.chunks.all (fun c => !c.isAtomChunk) = true ∨
        beam.chunks.all (fun c => !c.isImpChunk) = true ∨
        beam.chunks.all (fun c => !c.isExpChunk) = true) :
    read_module it beam = LoadResult.panic := by
  rcases h with h | h | h
  · have h1 : (scanChunks beam.chunks).atomC = none :=
      scanFold_atom_none beam.chunks ⟨none, none, none⟩ h
    simp [read_module, h1]
  · have h1 : (scanChunks beam.chunks).impC = none :=
      scanFold_imp_none beam.chunks ⟨none, none, none⟩ h
    cases h2 : (scanChunks beam.chunks).atomC with
    | none => simp [read_module, h2]
    | some names => simp [read_module, h2, h1]
  · have h1 : (scanChunks beam.chunks).expC = none :=
      scanFold_exp_none beam.chunks ⟨none, none, none⟩ h
    cases h2 : (scanChunks beam.chunks).atomC with
    | none => simp [read_module, h2]
    | some names =>
        cases h3 : (scanChunks beam.chunks).impC with
        | none => simp [read_module, h2, h3]
        | some raws =>
            cases h4 : load_imports (load_atoms it names).1 raws with
            | none => simp [read_module, h2, h3, h4]
            | some imps => simp [read_module, h2, h3, h4, h1]

/-- C6 (witness): the chunk list of the concrete file has no atom chunk
and decoding it panics. -/
theorem read_module_missing_chunk_panics_witness :
    beamNoAtomChunk.chunks.all (fun c => !c.isAtomChunk) = true ∧
      read_module ⟨["previous"]⟩ beamNoAtomChunk = LoadResult.panic :=
  ⟨by decide,
    read_module_missing_chunk_panics ⟨["previous"]⟩ beamNoAtomChunk
      (Or.inl (by decide))⟩

/-- Splitting a directory listing splits its processing. -/
theorem processEntries_append (l1 l2 : List DirEntry) :
    ∀ st, processEntries st (l1 ++ l2) =
      match processEntries st l1 with
      | LoadResult.ok st1 => processEntries st1 l2
      | LoadResult.err m => LoadResult.err m
      | LoadResult.panic => LoadResult.panic := by
  induction l1 with
  | nil => intro st; rfl
  | cons e rest ih =>
      intro st
      rw [List.cons_append]
      cases he : processEntry st e with
      | ok st1 =>
          simp only [processEntries, he]
          exact ih st1
      | err m => simp only [processEntries, he]
      | panic => simp only [processEntries, he]

/-- Splitting a library listing splits its processing. -/
theorem processLibs_append (l1 l2 : List LibEntry) :
    ∀ st, processLibs st (l1 ++ l2) =
      match processLibs st l1 with
      | LoadResult.ok st1 => processLibs st1 l2
      | LoadResult.err m => LoadResult.err m
      | LoadResult.panic => LoadResult.panic := by
  induction l1 with
  | nil => intro st; rfl
  | cons d rest ih =>
      intro st
      rw [List.cons_append]
      cases hd : processLib st d with
      | ok st1 =>
          simp only [processLibs, hd]
          exact ih st1
      | err m => simp only [processLibs, hd]
      | panic => simp only [processLibs, hd]

/-- C7: a file with an extension that is neither the compiled-module
extension nor the descriptor extension nor a recognized-ignored extension
fails the whole load with a structured error naming that file, provided
the preceding directories and entries processed without failure (when an
earlier entry already failed, the load still aborts, with that earlier
failure). -/
theorem read_libs_unexpected_file_error
    (dpre drest : List LibEntry) (d : LibEntry)
    (epre erest : List DirEntry) (e : DirEntry) (x : String)
    (st : LoadState × Apps) (st2 : LoadState × AppAcc)
    (hdpre : processLibs (⟨⟨[]⟩, []⟩, []) dpre = LoadResult.ok st)
    (hname : startsWithDot d.name = false)
    (hebin : d.ebin = some (epre ++ e :: erest))
    (hepre : processEntries (st.1, ⟨[], none, none⟩) epre =
      LoadResult.ok st2)
    (hext : e.ext = some x)
    (hbeam : x ≠ "beam") (happ : x ≠ "app") (happup : x ≠ "appup")
    (hhrl : x ≠ "hrl") (ham : x ≠ "am") :
    read_libs (dpre ++ d :: drest) =
      LoadResult.err ("unexpected file: " ++ e.path) := by
  have hor : ¬(x = "appup" ∨ x = "hrl" ∨ x = "am") := by
    rintro (h | h | h)
    · exact happup h
    · exact hhrl h
    · exact ham h
  have hpe : processEntry st2 e =
      LoadResult.err ("unexpected file: " ++ e.path) := by
    simp only [processEntry, hext]
    rw [if_neg hbeam, if_neg happ, if_neg hor]
  have hentries : processEntries (st.1, ⟨[], none, none⟩)
      (epre ++ e :: erest) =
      LoadResult.err ("unexpected file: " ++ e.path) := by
    rw [processEntries_append, hepre]
    simp only [processEntries, hpe]
  have hread : read_app st.1 d.ebinPath (epre ++ e :: erest) =
      LoadResult.err ("unexpected file: " ++ e.path) := by
    unfold read_app
    rw [hentries]
  have hlib : processLib st d =
      LoadResult.err ("unexpected file: " ++ e.path) := by
    simp only [processLib, hname, hebin, Bool.false_eq_true, if_false]
    rw [hread]
  show processLibs (⟨⟨[]⟩, []⟩, []) (dpre ++ d :: drest) = _
  rw [processLibs_append, hdpre]
  simp only [processLibs, hlib]

/-- C7 (witness): a module-output directory holding a single `.xyz` file
fails the whole load naming that file. -/
theorem read_libs_unexpected_file_error_witness :
    read_libs [libWithBadExt] =
      LoadResult.err ("unexpected file: " ++ entryBadExt.path) :=
  read_libs_unexpected_file_error [] [] libWithBadExt [] []
    entryBadExt "xyz" (⟨⟨[]⟩, []⟩, []) (⟨⟨[]⟩, []⟩, ⟨[], none, none⟩)
    rfl (by decide) rfl rfl rfl
    (by decide) (by decide) (by decide) (by decide) (by decide)

/-- C10: a directory entry with no extension at all (a subdirectory, for
instance) is silently skipped by `Loader::read_app`: deleting it from the
listing does not change the result of loading the application. -/
theorem read_app_skips_extensionless (ls : LoadState) (p : String)
    (pre rest : List DirEntry) (e : DirEntry) (h : e.ext = none) :
    read_app ls p (pre ++ e :: rest) = read_app ls p (pre ++ rest) := by
  have hskip : ∀ st, processEntry st e = LoadResult.ok st := by
    intro st
    unfold processEntry
    rw [h]
  have hpe : ∀ st, processEntries st (pre ++ e :: rest) =
      processEntries st (pre ++ rest) := by
    intro st
    rw [processEntries_append, processEntries_append]
    cases processEntries st pre with
    | ok st1 => simp only [processEntries, hskip st1]
    | err m => rfl
    | panic => rfl
  unfold read_app
  rw [hpe]

/-- C10 (witness): dropping a concrete extensionless entry leaves the
application load unchanged. -/
theorem read_app_skips_extensionless_witness :
    read_app emptyLoadState "lib/myapp/ebin" [entryAppFile, entryNoExt] =
      read_app emptyLoadState "lib/myapp/ebin" [entryAppFile] :=
  read_app_skips_extensionless emptyLoadState "lib/myapp/ebin"
    [entryAppFile] [] entryNoExt rfl
